import Mathlib

/-!
Verification of the miner-lottery core: the Sloth-style UNICORN VDF
(`src/unicorn.rs`), the simplified Fortuna CSPRNG (`src/fortuna.rs`) and the
selection helper (`src/utils.rs`), embedded shallowly.

Conventions of the embedding:
* rug `Integer` values are `Int`; byte strings (Rust `Vec<u8>` / `String`
  contents) are `List Nat` with each entry intended below 256.
* `u128` / `u64` / `u32` overflow is made explicit with `% 2 ^ w`.
* Fallible or panicking Rust operations return `Option`: `none` models a
  panic (`unwrap` failure, division by zero, out-of-bounds slice) or a
  diverging loop, as noted at each definition.
* The external primitives (SHA-256, AES-256-GCM-SIV, Miller-Rabin) are
  parameters of the definitions that use them: the claims under study do
  not depend on their concrete values, only on their types and, where
  stated as a hypothesis, on simple facts about them (for instance that
  Miller-Rabin definitively rejects moduli below 2).
-/

/-- One lowercase hexadecimal digit character (as an ASCII byte), as produced
by Rust's `hex::encode`. -/
def hexDigit (d : Nat) : Nat :=
  if d < 10 then 48 + d else 87 + d

/-- `hex::encode`: each byte becomes two lowercase hex characters. -/
def hexEncode (bs : List Nat) : List Nat :=
  bs.flatMap fun b => [hexDigit (b / 16), hexDigit (b % 16)]

/-- Helper for `natToBytesBe`, structurally recursive on a fuel argument so
that it reduces in the kernel; fuel `n` always suffices for input `n`. -/
def natToBytesBeAux : Nat → Nat → List Nat
  | 0, _ => []
  | fuel + 1, n => if n = 0 then [] else natToBytesBeAux fuel (n / 256) ++ [n % 256]

/-- `Integer::to_digits::<u8>(Order::MsfBe)`: the shortest big-endian byte
representation of a nonnegative integer; zero yields the empty list. -/
def natToBytesBe (n : Nat) : List Nat :=
  natToBytesBeAux n n

/-- Little-endian fixed-width byte representation, as used by `bincode` for
a `u64`. -/
def leBytes (k : Nat) (x : Nat) : List Nat :=
  (List.range k).map fun i => x / 256 ^ i % 256

/-- The `Unicorn` struct of `src/unicorn.rs`: iterations `l` (`u64`),
security level `k` (`u32`), seed `s` and modulus `p` (rug `Integer`s). -/
structure Unicorn where
  iterations : Nat
  security_level : Nat
  seed : Int
  modulus : Int

/-- `*w ^= 1` on a rug `Integer`: XOR with 1 in infinite two's complement,
which flips the lowest bit, i.e. adds 1 to an even number and subtracts 1
from an odd one (including negatives). -/
def xor1 (w : Int) : Int :=
  if w % 2 = 0 then w + 1 else w - 1

/-- The `while *w >= self.modulus || *w == 0` loop of `xor_for_overflow`,
with fuel. Since `xor1` is an involution the loop only ever visits two
values, so any fuel of at least 2 gives the exact semantics of the
unbounded loop (`xor_loop_stable` below); `none` models divergence. -/
def xor_loop (p : Int) : Nat → Int → Option Int
  | 0, _ => none
  | fuel + 1, w => if p ≤ w ∨ w = 0 then xor_loop p fuel (xor1 w) else some w

/-- `Unicorn::xor_for_overflow`: one unconditional XOR with 1, then repeat
while the value is 0 or at least the modulus. `none` models the loop never
exiting. -/
def xor_for_overflow (p w : Int) : Option Int :=
  xor_loop p 2 (xor1 w)

/-- The remainder of rug's `div_rem_floor` (floored division; remainder has
the divisor's sign). `none` models the panic on division by zero. -/
def frem (a b : Int) : Option Int :=
  if b = 0 then none else some (a.fmod b)

/-- rug's `pow_mod` (GMP `mpz_powm`): `b ^ e mod m`, normalized into
`[0, |m|)`. `none` models the panic on zero modulus; both call sites in the
source use a nonnegative exponent, so the negative-exponent `Err` branch is
also mapped to `none`. -/
def pow_mod (b e m : Int) : Option Int :=
  if m = 0 then none
  else if e < 0 then none
  else some ((b % m) ^ e.toNat % m)

/-- `Unicorn::is_valid_modulus`, parametrized by the Miller-Rabin verdict
`mr p` (`is_probably_prime(15) != IsPrime::No`). The Rust comparison value
is `2u64.pow(2 * self.security_level)`: the `u32` product `2 * k` and the
`u64` power both wrap, hence the explicit `% 2 ^ 32` and `% 2 ^ 64`. -/
def is_valid_modulus (mr : Int → Bool) (u : Unicorn) : Bool :=
  decide (((2 ^ (2 * u.security_level % 2 ^ 32) % 2 ^ 64 : Nat) : Int) ≤ u.modulus)
    && mr u.modulus

/-- The `for _ in 0..self.iterations` loop of `Unicorn::eval`: each round
applies `xor_for_overflow` and then the slow modular square root
`w.pow_mod_mut(&exponent, &self.modulus)`. -/
def eval_loop (p e : Int) : Nat → Int → Option Int
  | 0, w => some w
  | l + 1, w =>
    (xor_for_overflow p w).bind fun w1 =>
    (pow_mod w1 e p).bind fun w2 =>
    eval_loop p e l w2

/-- `Unicorn::eval`, parametrized by the Miller-Rabin verdict. The outer
`Option` models panic or divergence inside the loop; the inner `Option` is
the Rust return value: `some none` is Rust's `None` (invalid modulus),
`some (some (w, g))` is `Some((w, g))` with `g` the lowercase hex encoding
of the big-endian bytes of the witness. -/
def Unicorn.eval (mr : Int → Bool) (u : Unicorn) : Option (Option (Int × List Nat)) :=
  if is_valid_modulus mr u = false then some none
  else
    (frem u.seed u.modulus).bind fun w0 =>
    (eval_loop u.modulus (Int.tdiv (u.modulus + 1) 4) u.iterations w0).bind fun wl =>
    some (some (wl, hexEncode (natToBytesBe wl.toNat)))

/-- The `for _ in 0..self.iterations` loop of `Unicorn::verify`: each round
squares modulo `p`, negates with floored remainder, then applies
`xor_for_overflow`. -/
def verify_loop (p : Int) : Nat → Int → Option Int
  | 0, w => some w
  | l + 1, w =>
    (pow_mod w 2 p).bind fun w1 =>
    (frem (-w1) p).bind fun w2 =>
    (xor_for_overflow p w2).bind fun w3 =>
    verify_loop p l w3

/-- `Unicorn::verify`: run the inverse loop on the witness and compare with
`seed mod p`. The `Option` models panic (zero modulus) or divergence. -/
def Unicorn.verify (u : Unicorn) (seed witness : Int) : Option Bool :=
  (verify_loop u.modulus u.iterations witness).bind fun wl =>
  (frem seed u.modulus).bind fun s =>
  some (decide (wl = s))

/-- rug's `Integer::to_u64`: `Some` exactly when the value fits in an
unsigned 64-bit integer. -/
def to_u64 (z : Int) : Option Nat :=
  if 0 ≤ z ∧ z < 2 ^ 64 then some z.toNat else none

/-- `bincode::serialize` of an `Option<u64>`: a one-byte tag (0 for `None`,
1 for `Some`) followed, in the `Some` case, by the value as 8 little-endian
bytes. -/
def bincode_option_u64 : Option Nat → List Nat
  | none => [0]
  | some v => 1 :: leBytes 8 v

/-- `Unicorn::set_seed`, parametrized by SHA-256: stores the seed and
returns the commitment `hex(SHA256(hex(SHA256(bincode(seed.to_u64())))))`
together with the updated struct. -/
def set_seed (sha : List Nat → List Nat) (u : Unicorn) (seed : Int) :
    List Nat × Unicorn :=
  let u' := hexEncode (sha (bincode_option_u64 (to_u64 seed)))
  let c := hexEncode (sha u')
  (c, { u with seed := seed })

/-- Modulus validity as the specification words it: `p ≥ 2^(2k)` (exact
arithmetic, no 64-bit wrap) and Miller-Rabin does not answer composite.
Stated for comparison with `is_valid_modulus`, which is the code's
computation. -/
def spec_is_valid_modulus (mr : Int → Bool) (u : Unicorn) : Bool :=
  decide (((2 ^ (2 * u.security_level) : Nat) : Int) ≤ u.modulus) && mr u.modulus

/-- The `Fortuna` struct of `src/fortuna.rs`. The seeded AES-256-GCM-SIV
cipher instance is embedded as the block permutation it implements (`key`
maps a 16-byte plaintext block to the 16-byte ciphertext obtained with the
zero nonce and empty associated data, tag discarded); `cb` is the `u128`
counter and `bits_remainder` the buffer of unused tail bytes. -/
structure Fortuna where
  key : (Fin 16 → Nat) → Fin 16 → Nat
  cb : Nat
  bits_remainder : List Nat

/-- `u128::to_be_bytes`: the 16 big-endian bytes of a 128-bit value. -/
def beBytes (x : Nat) : Fin 16 → Nat :=
  fun i => x / 256 ^ (15 - i.val) % 256

/-- `Fortuna::gen_block`: encrypt the big-endian bytes of the counter and
increment the counter with 128-bit wrapping. AES-GCM-SIV encryption of a
16-byte buffer with a valid key and nonce cannot fail, so the `Result` of
the source is always `Ok` and is not modelled. -/
def gen_block (f : Fortuna) : List Nat × Fortuna :=
  (List.ofFn (f.key (beBytes f.cb)), ⟨f.key, (f.cb + 1) % 2 ^ 128, f.bits_remainder⟩)

/-- The `while len >= 16` loop of `Fortuna::get_bytes`: emit full 16-byte
blocks while at least 16 bytes are still needed. Returns the emitted bytes,
the remaining length and the advanced state. -/
def gen_loop (f : Fortuna) (len : Nat) : List Nat × Nat × Fortuna :=
  if _h : 16 ≤ len then
    let b := gen_block f
    let q := gen_loop b.2 (len - 16)
    (b.1 ++ q.1, q.2)
  else ([], len, f)
termination_by len
decreasing_by omega

/-- `Fortuna::get_bytes`: drain the remainder buffer first, then emit full
blocks, then serve a partial tail block, storing its unused bytes in the
remainder buffer. -/
def get_bytes (f : Fortuna) (len : Nat) : List Nat × Fortuna :=
  let range := min len f.bits_remainder.length
  let remainder := f.bits_remainder.take range
  let f1 : Fortuna := ⟨f.key, f.cb, f.bits_remainder.drop range⟩
  let len1 := len - remainder.length
  let q := gen_loop f1 len1
  let result := remainder ++ q.1
  let len2 := q.2.1
  let f2 := q.2.2
  if 0 < len2 then
    let b := gen_block f2
    let result2 := result ++ b.1.take len2
    if len2 < b.1.length then
      (result2, ⟨b.2.key, b.2.cb, b.2.bits_remainder ++ b.1.drop len2⟩)
    else (result2, b.2)
  else (result, f2)

/-- `Fortuna::gen_seed_key`, parametrized by the AES primitive `aes` (32-byte
key, 16-byte block in, 16-byte block out, zero nonce, empty associated data,
tag discarded): clamp the usage tag to 96 bits, encrypt `usage * 2^32` and
its successor under the caller's key, and key the operational cipher with
the concatenated ciphertexts. -/
def gen_seed_key (aes : List Nat → (Fin 16 → Nat) → Fin 16 → Nat)
    (key : List Nat) (usage : Nat) : (Fin 16 → Nat) → Fin 16 → Nat :=
  let usage1 := usage % 2 ^ 96
  let cb := 2 ^ 32 * usage1
  let cb1 := aes key (beBytes cb)
  let cb2 := aes key (beBytes ((cb + 1) % 2 ^ 128))
  aes (List.ofFn cb1 ++ List.ofFn cb2)

/-- `Fortuna::new`: derived key, counter 0, empty remainder buffer. -/
def Fortuna.new (aes : List Nat → (Fin 16 → Nat) → Fin 16 → Nat)
    (key : List Nat) (usage : Nat) : Fortuna :=
  ⟨gen_seed_key aes key usage, 0, []⟩

/-- The `UnicornInfo` record of `src/unicorn.rs`; `g_value` is kept as its
ASCII byte string. -/
structure UnicornInfo where
  unicorn : Unicorn
  g_value : List Nat
  witness : Int

/-- `unicorn_selection::get_unicorn_prn` of `src/utils.rs`: key a Fortuna
with the first 32 bytes of `g_value`, draw 8 bytes and read them as a
big-endian `u64`. `none` models the panic of the `[..32]` slice when
`g_value` is shorter than 32 bytes. -/
def get_unicorn_prn (aes : List Nat → (Fin 16 → Nat) → Fin 16 → Nat)
    (info : UnicornInfo) (usage_number : Nat) : Option Nat :=
  if 32 ≤ info.g_value.length then
    let prn_seed := info.g_value.take 32
    let csprng := Fortuna.new aes prn_seed usage_number
    let val := (get_bytes csprng 8).1
    some ((val.take 8).foldl (fun a b => a * 256 + b) 0)
  else none

/-- Fortuna states reachable through the public interface: a freshly
constructed generator, or the state left behind by any `get_bytes` call. -/
inductive Reachable : Fortuna → Prop
  | new (aes : List Nat → (Fin 16 → Nat) → Fin 16 → Nat) (key : List Nat)
      (usage : Nat) : Reachable (Fortuna.new aes key usage)
  | step (f : Fortuna) (n : Nat) : Reachable f → Reachable (get_bytes f n).2

/-! ### Properties of the xor permutation -/

/-- XOR with 1 is an involution. -/
theorem xor1_xor1 (w : Int) : xor1 (xor1 w) = w := by
  unfold xor1
  split <;> split <;> omega

/-- If both values the loop alternates between fail the exit condition, the
`xor_for_overflow` loop never exits, whatever the fuel. -/
theorem xor_loop_bad_none (p : Int) : ∀ (fuel : Nat) (w : Int),
    (p ≤ w ∨ w = 0) → (p ≤ xor1 w ∨ xor1 w = 0) → xor_loop p fuel w = none := by
  intro fuel
  induction fuel with
  | zero => intro w _ _; rfl
  | succ f ih =>
    intro w hw hx
    simp only [xor_loop, if_pos hw]
    exact ih (xor1 w) hx (by rw [xor1_xor1]; exact hw)

/-- The fuel bound 2 in `xor_for_overflow` is exact: since XOR with 1 is an
involution, the loop visits only two values, so any fuel of at least 2
computes the same result as the unbounded while loop. -/
theorem xor_loop_stable (p : Int) (fuel : Nat) (hf : 2 ≤ fuel) (w : Int) :
    xor_loop p fuel w = xor_loop p 2 w := by
  obtain ⟨f, rfl⟩ : ∃ f, fuel = f + 2 := ⟨fuel - 2, by omega⟩
  by_cases hw : p ≤ w ∨ w = 0
  · by_cases hx : p ≤ xor1 w ∨ xor1 w = 0
    · rw [xor_loop_bad_none p (f + 2) w hw hx, xor_loop_bad_none p 2 w hw hx]
    · cases f with
      | zero => rfl
      | succ f =>
        simp only [xor_loop, if_pos hw, if_neg hx]
  · simp only [xor_loop, if_neg hw]

/-- For a modulus of at least 2 and an input in `[0, p)`, `xor_for_overflow`
terminates and returns a value in `(0, p)`. -/
theorem xor_for_overflow_total {p w : Int} (hp : 2 ≤ p) (hw0 : 0 ≤ w)
    (hwp : w < p) : ∃ r, xor_for_overflow p w = some r ∧ 0 < r ∧ r < p := by
  have hvv := xor1_xor1 w
  have hv : (w % 2 = 0 ∧ xor1 w = w + 1) ∨ (w % 2 = 1 ∧ xor1 w = w - 1) := by
    unfold xor1
    rcases Int.emod_two_eq w with h | h <;> simp [h]
  unfold xor_for_overflow
  generalize hg : xor1 w = v at hvv hv ⊢
  by_cases hbad : p ≤ v ∨ v = 0
  · have hw1 : 0 < w := by
      rcases hv with ⟨h1, h2⟩ | ⟨h1, h2⟩ <;> rcases hbad with h3 | h3 <;> omega
    have hwgood : ¬(p ≤ w ∨ w = 0) := by
      intro hc
      rcases hc with h3 | h3 <;> omega
    refine ⟨w, ?_, hw1, hwp⟩
    simp only [xor_loop, if_pos hbad, hvv, if_neg hwgood]
  · have h1 : ¬p ≤ v := fun h => hbad (Or.inl h)
    have h2 : v ≠ 0 := fun h => hbad (Or.inr h)
    refine ⟨v, by simp only [xor_loop, if_neg hbad], ?_, by omega⟩
    rcases hv with ⟨h3, h4⟩ | ⟨h3, h4⟩ <;> omega

/-! ### Totality of the eval and verify loops for a modulus of at least 2 -/

/-- Every iteration of the verify loop first squares modulo `p`, which
normalizes any integer into `[0, p)`, so for `p ≥ 2` the loop always
terminates, whatever the starting witness. -/
theorem verify_loop_total {p : Int} (hp : 2 ≤ p) :
    ∀ (l : Nat) (w : Int), ∃ r, verify_loop p l w = some r := by
  intro l
  induction l with
  | zero => intro w; exact ⟨w, rfl⟩
  | succ l ih =>
    intro w
    have hp0 : p ≠ 0 := by omega
    have hsq : pow_mod w 2 p = some ((w % p) ^ (2 : Int).toNat % p) := by
      unfold pow_mod
      rw [if_neg hp0, if_neg (by omega)]
    have hw1n : 0 ≤ (w % p) ^ (2 : Int).toNat % p := Int.emod_nonneg _ hp0
    have hneg : frem (-((w % p) ^ (2 : Int).toNat % p)) p =
        some ((-((w % p) ^ (2 : Int).toNat % p)).fmod p) := by
      unfold frem
      rw [if_neg hp0]
    have hw2n : 0 ≤ (-((w % p) ^ (2 : Int).toNat % p)).fmod p := by
      rw [Int.fmod_eq_emod _ (by omega)]
      exact Int.emod_nonneg _ hp0
    have hw2l : (-((w % p) ^ (2 : Int).toNat % p)).fmod p < p := by
      rw [Int.fmod_eq_emod _ (by omega)]
      exact Int.emod_lt_of_pos _ (by omega)
    obtain ⟨w3, hx, _, _⟩ := xor_for_overflow_total hp hw2n hw2l
    obtain ⟨r, hr⟩ := ih w3
    exact ⟨r, by simp only [verify_loop, hsq, Option.some_bind, hneg, hx, hr]⟩

/-- For `p ≥ 2` and a nonnegative exponent, the eval loop terminates from
any starting value in `[0, p)` and stays in `[0, p)`. -/
theorem eval_loop_total {p e : Int} (hp : 2 ≤ p) (he : 0 ≤ e) :
    ∀ (l : Nat) (w : Int), 0 ≤ w → w < p →
      ∃ r, eval_loop p e l w = some r ∧ 0 ≤ r ∧ r < p := by
  intro l
  induction l with
  | zero => intro w h1 h2; exact ⟨w, rfl, h1, h2⟩
  | succ l ih =>
    intro w h1 h2
    obtain ⟨w1, hx, _, _⟩ := xor_for_overflow_total hp h1 h2
    have hp0 : p ≠ 0 := by omega
    have hpw : pow_mod w1 e p = some ((w1 % p) ^ e.toNat % p) := by
      unfold pow_mod
      rw [if_neg hp0, if_neg (by omega)]
    have h2n : 0 ≤ (w1 % p) ^ e.toNat % p := Int.emod_nonneg _ hp0
    have h2l : (w1 % p) ^ e.toNat % p < p := Int.emod_lt_of_pos _ (by omega)
    obtain ⟨r, hr, hr1, hr2⟩ := ih _ h2n h2l
    exact ⟨r, by simp only [eval_loop, hx, Option.some_bind, hpw, hr], hr1, hr2⟩

/-! ### Claims about the VDF -/

/-- C8: for every modulus `p ≥ 2` and every `w` with `0 ≤ w < p`,
`xor_for_overflow(w)` terminates after a bounded number of xor-with-1 steps
(possibly more than one; the fuel bound 2 is exact by `xor_loop_stable`)
and leaves a value `w2` with `0 < w2 < p`. -/
theorem c8_xor_for_overflow_total (p w : Int) (hp : 2 ≤ p) (hw0 : 0 ≤ w)
    (hwp : w < p) : ∃ w2, xor_for_overflow p w = some w2 ∧ 0 < w2 ∧ w2 < p :=
  xor_for_overflow_total hp hw0 hwp

/-- Witness for C8 at `p = 7`, `w = 1`: here the loop xors more than once
(`1 ^ 1 = 0` is rejected, a second xor returns to 1). -/
theorem c8_xor_for_overflow_total_witness :
    (2 : Int) ≤ 7 ∧ (0 : Int) ≤ 1 ∧ (1 : Int) < 7 ∧
    ∃ w2, xor_for_overflow 7 1 = some w2 ∧ 0 < w2 ∧ w2 < 7 :=
  ⟨by decide, by decide, by decide,
   c8_xor_for_overflow_total 7 1 (by decide) (by decide) (by decide)⟩

/-- C1 (refuting evaluation): the Unicorn with prime modulus 7 (which is
congruent 3 mod 4 and at least `2^(2*1)`), one iteration, security level 1
and seed 3 evaluates to the witness 4 with hex digest "04" (bytes 48, 52),
yet `verify(3, 4)` returns `false`: the eval loop maps 3 to
`(3 xor 1)^2 mod 7 = 4`, while the verify loop maps 4 to
`((-(4^2)) mod 7) xor 1 = 5 xor 1 = 4 ≠ 3`. The inverse step only undoes a
forward step when the xored value is a quadratic non-residue, which fails
for about half of all seeds. -/
theorem c1_eval_verify_roundtrip_fails :
    Unicorn.eval (fun m => decide (m = 7)) ⟨1, 1, 3, 7⟩ =
      some (some (4, [48, 52])) ∧
    Unicorn.verify ⟨1, 1, 3, 7⟩ 3 4 = some false := by
  constructor
  · decide
  · decide

/-- C4 (counterexample): with modulus 0 — the claim quantifies over every
Unicorn — `verify` panics: the final `div_rem_floor` divides by zero, so no
boolean is returned. -/
theorem c4_verify_counterexample :
    Unicorn.verify ⟨0, 0, 0, 0⟩ 0 0 = none := by
  decide

/-- C4 (amended): for every Unicorn whose modulus is at least 2, and all
integer seed and witness arguments, `verify` runs to completion and returns
a boolean. (Modulus 0 panics; modulus 1 makes the xor loop diverge when
there is at least one iteration.) -/
theorem c4_verify_total (u : Unicorn) (seed witness : Int)
    (hp : 2 ≤ u.modulus) : ∃ b, Unicorn.verify u seed witness = some b := by
  obtain ⟨wl, hl⟩ := verify_loop_total hp u.iterations witness
  have hp0 : u.modulus ≠ 0 := by omega
  refine ⟨decide (wl = seed.fmod u.modulus), ?_⟩
  unfold Unicorn.verify frem
  rw [hl, Option.some_bind, if_neg hp0, Option.some_bind]

/-- Witness for C4 (amended) at the modulus-7 Unicorn, seed 3, witness 8. -/
theorem c4_verify_total_witness :
    (2 : Int) ≤ (Unicorn.mk 1 1 3 7).modulus ∧
    ∃ b, Unicorn.verify ⟨1, 1, 3, 7⟩ 3 8 = some b :=
  ⟨by decide, c4_verify_total ⟨1, 1, 3, 7⟩ 3 8 (by decide)⟩

/-- C2 (counterexample): the code computes the size bound with
`2u64.pow(2 * k)`, which wraps: at security level `k = 32` the bound is
`2^64 mod 2^64 = 0`, so the tiny prime modulus 3 passes
`is_valid_modulus` and `eval` returns `Some`, although the claim's
characterization `p ≥ 2^(2k)` rejects it (`3 < 2^64`). -/
theorem c2_eval_none_iff_invalid_counterexample :
    is_valid_modulus (fun m => decide (m = 3)) ⟨0, 32, 0, 3⟩ = true ∧
    spec_is_valid_modulus (fun m => decide (m = 3)) ⟨0, 32, 0, 3⟩ = false ∧
    Unicorn.eval (fun m => decide (m = 3)) ⟨0, 32, 0, 3⟩ = some (some (0, [])) := by
  refine ⟨by decide, by decide, by decide⟩

/-- C2 (amended): provided the Miller-Rabin verdict is genuine in that it
definitively rejects every modulus below 2 (GMP's `is_probably_prime`
answers `No` for 0 and 1), `eval` returns Rust `None` iff
`is_valid_modulus` is false, and returns `Some((witness, g))` whenever
`is_valid_modulus` holds — where `is_valid_modulus` compares the modulus
against the wrapped 64-bit value `2^(2k) mod 2^64` (equal to `2^(2k)`
whenever `k < 32`) and requires the Miller-Rabin verdict. -/
theorem c2_eval_none_iff_invalid (mr : Int → Bool) (u : Unicorn)
    (hmr : ∀ m, mr m = true → 2 ≤ m) :
    (Unicorn.eval mr u = some none ↔ is_valid_modulus mr u = false) ∧
    (is_valid_modulus mr u = true →
      ∃ w g, Unicorn.eval mr u = some (some (w, g))) := by
  by_cases hv : is_valid_modulus mr u = false
  · refine ⟨⟨fun _ => hv, fun _ => ?_⟩, fun h => ?_⟩
    · unfold Unicorn.eval
      rw [if_pos hv]
    · rw [h] at hv
      cases hv
  · have hvt : is_valid_modulus mr u = true := by
      cases h : is_valid_modulus mr u
      · exact absurd h hv
      · rfl
    have hmrp : mr u.modulus = true := by
      have h := hvt
      unfold is_valid_modulus at h
      exact (Bool.and_eq_true _ _).mp h |>.2
    have hp : 2 ≤ u.modulus := hmr _ hmrp
    have hp0 : u.modulus ≠ 0 := by omega
    have hfrem : frem u.seed u.modulus = some (u.seed.fmod u.modulus) := by
      unfold frem
      rw [if_neg hp0]
    have hw0n : 0 ≤ u.seed.fmod u.modulus := by
      rw [Int.fmod_eq_emod _ (by omega)]
      exact Int.emod_nonneg _ hp0
    have hw0l : u.seed.fmod u.modulus < u.modulus := by
      rw [Int.fmod_eq_emod _ (by omega)]
      exact Int.emod_lt_of_pos _ (by omega)
    have he : 0 ≤ Int.tdiv (u.modulus + 1) 4 :=
      Int.tdiv_nonneg (by omega) (by omega)
    obtain ⟨r, hr, _, _⟩ := eval_loop_total hp he u.iterations _ hw0n hw0l
    have heval : Unicorn.eval mr u =
        some (some (r, hexEncode (natToBytesBe r.toNat))) := by
      unfold Unicorn.eval
      rw [if_neg hv, hfrem, Option.some_bind, hr, Option.some_bind]
    refine ⟨⟨fun h => ?_, fun h => absurd h hv⟩, fun _ => ⟨_, _, heval⟩⟩
    rw [heval] at h
    simp at h

/-- Witness for C2 (amended) at the modulus-7 Unicorn with a Miller-Rabin
verdict accepting exactly 7. -/
theorem c2_eval_none_iff_invalid_witness :
    (∀ m, (fun m : Int => decide (m = 7)) m = true → 2 ≤ m) ∧
    ((Unicorn.eval (fun m => decide (m = 7)) ⟨2, 1, 5, 7⟩ = some none ↔
        is_valid_modulus (fun m => decide (m = 7)) ⟨2, 1, 5, 7⟩ = false) ∧
     (is_valid_modulus (fun m => decide (m = 7)) ⟨2, 1, 5, 7⟩ = true →
        ∃ w g, Unicorn.eval (fun m => decide (m = 7)) ⟨2, 1, 5, 7⟩ =
          some (some (w, g)))) := by
  have hmr : ∀ m, (fun m : Int => decide (m = 7)) m = true → 2 ≤ m := by
    intro m hm
    have h := of_decide_eq_true hm
    omega
  exact ⟨hmr, c2_eval_none_iff_invalid (fun m => decide (m = 7)) ⟨2, 1, 5, 7⟩ hmr⟩

/-- Lowercase-hex property of a single encoded digit. -/
def isLowerHexDigit (c : Nat) : Prop :=
  (48 ≤ c ∧ c ≤ 57) ∨ (97 ≤ c ∧ c ≤ 102)

/-- `hexDigit` of a value below 16 is a lowercase hex character. -/
theorem hexDigit_isLowerHexDigit {d : Nat} (hd : d < 16) :
    isLowerHexDigit (hexDigit d) := by
  unfold hexDigit isLowerHexDigit
  split <;> omega

/-- `hexEncode` of a byte string consists of lowercase hex characters. -/
theorem hexEncode_isLowerHexDigit {bs : List Nat} (hb : ∀ b ∈ bs, b < 256) :
    ∀ c ∈ hexEncode bs, isLowerHexDigit c := by
  intro c hc
  rw [hexEncode, List.mem_flatMap] at hc
  obtain ⟨b, hbs, hcb⟩ := hc
  have hb256 := hb b hbs
  simp only [List.mem_cons, List.not_mem_nil, or_false] at hcb
  rcases hcb with h | h
  · exact h ▸ hexDigit_isLowerHexDigit (by omega)
  · exact h ▸ hexDigit_isLowerHexDigit (by omega)

/-- C5: for every SHA-256 oracle (returning byte values), every Unicorn and
every seed, `set_seed` stores the seed, leaves the modulus, iterations and
security level unchanged, and returns the commitment
`hex(SHA256(hex(SHA256(bincode(seed.to_u64())))))`, a lowercase hex
string. -/
theorem c5_set_seed_frame (sha : List Nat → List Nat) (u : Unicorn)
    (seed : Int) (hsha : ∀ x, ∀ b ∈ sha x, b < 256) :
    (set_seed sha u seed).2.seed = seed ∧
    (set_seed sha u seed).2.modulus = u.modulus ∧
    (set_seed sha u seed).2.iterations = u.iterations ∧
    (set_seed sha u seed).2.security_level = u.security_level ∧
    (set_seed sha u seed).1 =
      hexEncode (sha (hexEncode (sha (bincode_option_u64 (to_u64 seed))))) ∧
    ∀ c ∈ (set_seed sha u seed).1, isLowerHexDigit c :=
  ⟨rfl, rfl, rfl, rfl, rfl, hexEncode_isLowerHexDigit (hsha _)⟩

/-- Witness for C5 with the constant byte-valued oracle `fun _ => [0]`, the
zero Unicorn and seed 5. -/
theorem c5_set_seed_frame_witness :
    (∀ x, ∀ b ∈ (fun _ : List Nat => [0]) x, b < 256) ∧
    ((set_seed (fun _ => [0]) ⟨0, 0, 0, 0⟩ 5).2.seed = 5 ∧
     (set_seed (fun _ => [0]) ⟨0, 0, 0, 0⟩ 5).2.modulus = (0 : Int) ∧
     (set_seed (fun _ => [0]) ⟨0, 0, 0, 0⟩ 5).2.iterations = 0 ∧
     (set_seed (fun _ => [0]) ⟨0, 0, 0, 0⟩ 5).2.security_level = 0 ∧
     (set_seed (fun _ => [0]) ⟨0, 0, 0, 0⟩ 5).1 =
       hexEncode ((fun _ => [0])
         (hexEncode ((fun _ : List Nat => [0]) (bincode_option_u64 (to_u64 5))))) ∧
     ∀ c ∈ (set_seed (fun _ => [0]) ⟨0, 0, 0, 0⟩ 5).1, isLowerHexDigit c) := by
  have hsha : ∀ x, ∀ b ∈ (fun _ : List Nat => [0]) x, b < 256 := by
    intro x b hb
    simp only [List.mem_singleton] at hb
    omega
  exact ⟨hsha, c5_set_seed_frame (fun _ => [0]) ⟨0, 0, 0, 0⟩ 5 hsha⟩

/-- C10: every seed of at least `2^64` is not representable as a `u64`, so
`to_u64` yields `None` and `set_seed` produces one and the same commitment
for all such seeds, whatever their low 64 bits and whatever the rest of the
Unicorn state. -/
theorem c10_commitment_collapse (sha : List Nat → List Nat)
    (u1 u2 : Unicorn) (s1 s2 : Int) (h1 : 2 ^ 64 ≤ s1) (h2 : 2 ^ 64 ≤ s2) :
    to_u64 s1 = none ∧ (set_seed sha u1 s1).1 = (set_seed sha u2 s2).1 := by
  have e1 : to_u64 s1 = none := by
    unfold to_u64
    rw [if_neg]
    omega
  have e2 : to_u64 s2 = none := by
    unfold to_u64
    rw [if_neg]
    omega
  refine ⟨e1, ?_⟩
  unfold set_seed
  rw [e1, e2]

/-- Witness for C10 at the seeds `2^64` and `2^64 + 1` (identical low 64
bits are not even needed: these two differ in their low bits). -/
theorem c10_commitment_collapse_witness :
    ((2 : Int) ^ 64 ≤ 2 ^ 64) ∧ ((2 : Int) ^ 64 ≤ 2 ^ 64 + 1) ∧
    (to_u64 (2 ^ 64) = none ∧
     (set_seed (fun l => l) ⟨0, 0, 0, 0⟩ (2 ^ 64)).1 =
       (set_seed (fun l => l) ⟨0, 0, 0, 0⟩ (2 ^ 64 + 1)).1) :=
  ⟨le_refl _, by omega,
   c10_commitment_collapse (fun l => l) ⟨0, 0, 0, 0⟩ ⟨0, 0, 0, 0⟩
     (2 ^ 64) (2 ^ 64 + 1) (le_refl _) (by omega)⟩

/-! ### A byte-at-a-time reading of the Fortuna stream

`get_bytes` drains the remainder, then emits whole blocks, then a partial
block. The proofs below factor it through an equivalent one-byte-at-a-time
reader `bytes1`, for which concatenation laws are immediate. -/

/-- The 16-byte block the cipher yields for the current counter value. -/
def block (f : Fortuna) : List Nat :=
  List.ofFn (f.key (beBytes f.cb))

/-- The state after one block generation: counter bumped modulo `2^128`,
remainder unchanged. -/
def bump (f : Fortuna) : Fortuna :=
  ⟨f.key, (f.cb + 1) % 2 ^ 128, f.bits_remainder⟩

theorem gen_block_eq (f : Fortuna) : gen_block f = (block f, bump f) := rfl

/-- One byte of the Fortuna stream: serve from the remainder if possible,
otherwise generate a block, emit its head and buffer its tail. -/
def next_byte (f : Fortuna) : Nat × Fortuna :=
  match f.bits_remainder with
  | b :: rest => (b, ⟨f.key, f.cb, rest⟩)
  | [] => ((block f).headI, ⟨f.key, (f.cb + 1) % 2 ^ 128, (block f).drop 1⟩)

/-- Reference reader: `n` bytes, one at a time. -/
def bytes1 : Fortuna → Nat → List Nat × Fortuna
  | f, 0 => ([], f)
  | f, n + 1 =>
    let q := bytes1 (next_byte f).2 n
    ((next_byte f).1 :: q.1, q.2)

/-- The reference reader always returns exactly the requested number of
bytes. -/
theorem bytes1_length : ∀ (n : Nat) (f : Fortuna), (bytes1 f n).1.length = n := by
  intro n
  induction n with
  | zero => intro f; rfl
  | succ n ih =>
    intro f
    simp [bytes1, ih]

/-- Reading `a + b` bytes is reading `a` bytes and then `b` bytes. -/
theorem bytes1_add : ∀ (a b : Nat) (f : Fortuna),
    bytes1 f (a + b) =
      ((bytes1 f a).1 ++ (bytes1 (bytes1 f a).2 b).1,
        (bytes1 (bytes1 f a).2 b).2) := by
  intro a
  induction a with
  | zero =>
    intro b f
    simp [bytes1]
  | succ a ih =>
    intro b f
    have h : a + 1 + b = (a + b) + 1 := by omega
    rw [h]
    simp only [bytes1]
    rw [ih b (next_byte f).2]
    simp

/-- Reading at most the remainder's length takes a prefix of the remainder
and leaves its tail, with the counter untouched. -/
theorem bytes1_take : ∀ (n : Nat) (f : Fortuna), n ≤ f.bits_remainder.length →
    bytes1 f n = (f.bits_remainder.take n, ⟨f.key, f.cb, f.bits_remainder.drop n⟩) := by
  intro n
  induction n with
  | zero => intro f _; rfl
  | succ n ih =>
    intro f hn
    obtain ⟨k, cb, rem⟩ := f
    cases rem with
    | nil => simp at hn
    | cons b rest =>
      simp only [bytes1, next_byte]
      rw [ih ⟨k, cb, rest⟩ (by simpa using hn)]
      simp

/-- Reading `0 < s ≤ 16` bytes with an empty remainder takes a prefix of
one fresh block and buffers the rest of it. -/
theorem bytes1_tail_block : ∀ (s : Nat) (f : Fortuna),
    f.bits_remainder = [] → 0 < s → s ≤ 16 →
    bytes1 f s =
      ((block f).take s, ⟨f.key, (f.cb + 1) % 2 ^ 128, (block f).drop s⟩) := by
  intro s f hrem hs hs16
  obtain ⟨t, rfl⟩ : ∃ t, s = t + 1 := ⟨s - 1, by omega⟩
  obtain ⟨k, cb, rem⟩ := f
  obtain rfl : rem = [] := hrem
  have hlen : (block (⟨k, cb, []⟩ : Fortuna)).length = 16 := List.length_ofFn _
  cases hB : block (⟨k, cb, []⟩ : Fortuna) with
  | nil => rw [hB] at hlen; simp at hlen
  | cons hd tl =>
    rw [hB] at hlen
    simp only [List.length_cons] at hlen
    simp only [bytes1, next_byte, hB]
    rw [show List.drop 1 (hd :: tl) = tl from rfl]
    rw [bytes1_take t ⟨k, (cb + 1) % 2 ^ 128, tl⟩ (by simp; omega)]
    simp

/-- Reading exactly 16 bytes with an empty remainder yields one whole block
and leaves the remainder empty. -/
theorem bytes1_16 (f : Fortuna) (hrem : f.bits_remainder = []) :
    bytes1 f 16 = (block f, ⟨f.key, (f.cb + 1) % 2 ^ 128, []⟩) := by
  rw [bytes1_tail_block 16 f hrem (by omega) (le_refl 16)]
  have hl : (block f).length = 16 := List.length_ofFn _
  rw [← hl, List.take_length, List.drop_length]

/-- The whole-block loop of `get_bytes` reads `16 * (len / 16)` bytes of the
stream, leaves `len % 16` bytes to serve, and keeps the remainder empty. -/
theorem gen_loop_eq_bytes1 : ∀ (len : Nat) (f : Fortuna),
    f.bits_remainder = [] →
    gen_loop f len =
      ((bytes1 f (16 * (len / 16))).1, len % 16,
        (bytes1 f (16 * (len / 16))).2) ∧
    (bytes1 f (16 * (len / 16))).2.bits_remainder = [] := by
  intro len
  induction len using Nat.strong_induction_on with
  | _ len ih =>
    intro f hrem
    by_cases h16 : 16 ≤ len
    · obtain ⟨k, cb, rem⟩ := f
      obtain rfl : rem = [] := hrem
      have hdiv : 16 * (len / 16) = 16 + 16 * ((len - 16) / 16) := by omega
      have hmod : (len - 16) % 16 = len % 16 := by omega
      obtain ⟨ihq, ihrem⟩ :=
        ih (len - 16) (by omega) ⟨k, (cb + 1) % 2 ^ 128, []⟩ rfl
      have hb16 := bytes1_16 ⟨k, cb, []⟩ rfl
      have hR : bytes1 (⟨k, cb, []⟩ : Fortuna) (16 * (len / 16)) =
          (block ⟨k, cb, []⟩ ++
             (bytes1 (⟨k, (cb + 1) % 2 ^ 128, []⟩ : Fortuna)
               (16 * ((len - 16) / 16))).1,
           (bytes1 (⟨k, (cb + 1) % 2 ^ 128, []⟩ : Fortuna)
             (16 * ((len - 16) / 16))).2) := by
        rw [hdiv, bytes1_add, hb16]
      have hL : gen_loop (⟨k, cb, []⟩ : Fortuna) len =
          (block ⟨k, cb, []⟩ ++
             (bytes1 (⟨k, (cb + 1) % 2 ^ 128, []⟩ : Fortuna)
               (16 * ((len - 16) / 16))).1,
           len % 16,
           (bytes1 (⟨k, (cb + 1) % 2 ^ 128, []⟩ : Fortuna)
             (16 * ((len - 16) / 16))).2) := by
        rw [gen_loop, dif_pos h16]
        show (block ⟨k, cb, []⟩ ++
              (gen_loop (⟨k, (cb + 1) % 2 ^ 128, []⟩ : Fortuna) (len - 16)).1,
              (gen_loop (⟨k, (cb + 1) % 2 ^ 128, []⟩ : Fortuna) (len - 16)).2) = _
        rw [ihq, hmod]
      rw [hL, hR]
      exact ⟨rfl, ihrem⟩
    · have hq : len / 16 = 0 := by omega
      have hm : len % 16 = len := by omega
      rw [hq, hm]
      exact ⟨by rw [gen_loop, dif_neg h16]; rfl, hrem⟩

/-- `get_bytes` computes exactly the byte-at-a-time reading of the stream:
same output bytes and same final state, for every state and length. -/
theorem get_bytes_eq_bytes1 (f : Fortuna) (n : Nat) :
    get_bytes f n = bytes1 f n := by
  obtain ⟨k, cb, rem⟩ := f
  by_cases hn : n ≤ rem.length
  · have hmin : min n rem.length = n := by omega
    rw [bytes1_take n ⟨k, cb, rem⟩ hn]
    unfold get_bytes
    simp only [hmin, List.length_take, min_self, Nat.sub_self]
    rw [gen_loop]
    simp
  · push_neg at hn
    have hmin : min n rem.length = rem.length := by omega
    have hsplit : n = rem.length + (n - rem.length) := by omega
    have hb : bytes1 (⟨k, cb, rem⟩ : Fortuna) n =
        (rem ++ (bytes1 (⟨k, cb, []⟩ : Fortuna) (n - rem.length)).1,
         (bytes1 (⟨k, cb, []⟩ : Fortuna) (n - rem.length)).2) := by
      conv_lhs => rw [hsplit]
      rw [bytes1_add, bytes1_take rem.length ⟨k, cb, rem⟩ (le_refl _)]
      simp
    rw [hb]
    obtain ⟨hGq, hGrem⟩ := gen_loop_eq_bytes1 (n - rem.length) ⟨k, cb, []⟩ rfl
    unfold get_bytes
    simp only [hmin, List.length_take, List.take_length, List.drop_length,
      min_self]
    rw [hGq]
    by_cases hs : (n - rem.length) % 16 = 0
    · have hM : 16 * ((n - rem.length) / 16) = n - rem.length := by omega
      rw [hM]
      simp [hs]
    · have hM : n - rem.length = 16 * ((n - rem.length) / 16) +
          (n - rem.length) % 16 := by omega
      have hlt : (n - rem.length) % 16 < 16 := by omega
      have hbp := bytes1_tail_block ((n - rem.length) % 16)
        (bytes1 (⟨k, cb, []⟩ : Fortuna) (16 * ((n - rem.length) / 16))).2
        hGrem (by omega) (by omega)
      conv_rhs => rw [hM, bytes1_add, hbp]
      have hblen : (block
          (bytes1 (⟨k, cb, []⟩ : Fortuna)
            (16 * ((n - rem.length) / 16))).2).length = 16 :=
        List.length_ofFn _
      simp only [gen_block_eq, bump, hGrem]
      rw [hblen, if_pos (by omega : 0 < (n - rem.length) % 16),
        if_pos (by omega : (n - rem.length) % 16 < 16)]
      simp [List.append_assoc]

/-- The byte-at-a-time reader preserves the short-remainder invariant. -/
theorem bytes1_rem_lt : ∀ (n : Nat) (f : Fortuna),
    f.bits_remainder.length < 16 →
    ((bytes1 f n).2).bits_remainder.length < 16 := by
  intro n
  induction n with
  | zero => intro f hf; exact hf
  | succ n ih =>
    intro f hf
    simp only [bytes1]
    apply ih
    obtain ⟨k, cb, rem⟩ := f
    cases rem with
    | nil =>
      simp only [next_byte]
      have hl : (block (⟨k, cb, []⟩ : Fortuna)).length = 16 := List.length_ofFn _
      simp [List.length_drop, hl]
    | cons b rest =>
      simp only [next_byte]
      simp only [List.length_cons] at hf
      simpa using by omega

/-! ### Claims about the CSPRNG and the selection helper -/

/-- C3: for every Fortuna state (in particular every state reachable from
`Fortuna::new` through `get_bytes` calls) and all lengths, `get_bytes(n1)`
followed by `get_bytes(n2)` yields, concatenated, the same bytes as a
single `get_bytes(n1+n2)` from the same state. -/
theorem c3_get_bytes_split (f : Fortuna) (n1 n2 : Nat) :
    (get_bytes f n1).1 ++ (get_bytes (get_bytes f n1).2 n2).1 =
      (get_bytes f (n1 + n2)).1 := by
  rw [get_bytes_eq_bytes1, get_bytes_eq_bytes1, get_bytes_eq_bytes1,
    bytes1_add]

/-- C6: for every Fortuna state (in particular every reachable one) and
every requested length, `get_bytes` returns exactly that many bytes. -/
theorem c6_get_bytes_length (f : Fortuna) (n : Nat) :
    (get_bytes f n).1.length = n := by
  rw [get_bytes_eq_bytes1, bytes1_length]

/-- C7: a Fortuna constructed by `new` has an empty remainder buffer, and
every state reachable through the public interface — `new`, then any
sequence of `get_bytes` calls — has a remainder buffer of length strictly
below 16. -/
theorem c7_remainder_invariant :
    (∀ (aes : List Nat → (Fin 16 → Nat) → Fin 16 → Nat) (key : List Nat)
        (usage : Nat), (Fortuna.new aes key usage).bits_remainder = []) ∧
    (∀ f, Reachable f → f.bits_remainder.length < 16) := by
  refine ⟨fun aes key usage => rfl, fun f h => ?_⟩
  induction h with
  | new aes key usage => simp [Fortuna.new]
  | step f n hf ih =>
    rw [get_bytes_eq_bytes1]
    exact bytes1_rem_lt n f ih

/-- Witness for C7: the freshly constructed generator under the identity
cipher, and the state it leaves after serving 5 bytes. -/
theorem c7_remainder_invariant_witness :
    (Fortuna.new (fun _ b => b) [] 0).bits_remainder = [] ∧
    ((get_bytes (Fortuna.new (fun _ b => b) [] 0) 5).2).bits_remainder.length
      < 16 :=
  ⟨c7_remainder_invariant.1 (fun _ b => b) [] 0,
   c7_remainder_invariant.2 _
     (Reachable.step (Fortuna.new (fun _ b => b) [] 0) 5
       (Reachable.new (fun _ b => b) [] 0))⟩

/-- C9: `get_unicorn_prn` is defined exactly when `g_value` holds at least
32 bytes; for shorter `g_value` the `[..32]` slice panics. -/
theorem c9_get_unicorn_prn_slice (aes : List Nat → (Fin 16 → Nat) → Fin 16 → Nat)
    (info : UnicornInfo) (usage : Nat) :
    get_unicorn_prn aes info usage = none ↔ info.g_value.length < 32 := by
  unfold get_unicorn_prn
  split
  · next h => exact iff_of_false (by simp) (by omega)
  · next h => exact iff_of_true rfl (by omega)
